import Mathlib

/-!
Verification of the vector index lifecycle manager of the AI-Document-Search
repository (`app/backend/vectorstore/faiss_index.py`, class `FaissIndexer`, and
`app/backend/ingestion/indexer.py`, class `Indexer`).

Shallow embedding conventions:
* Embedding vectors are modelled as `List ℚ` (exact arithmetic in place of
  float32; the claims under study are about structure and ordering, not
  rounding).
* The faiss library is an external collaborator; `Engine` models a
  `faiss.IndexFlatL2` instance through the contract the spec gives it in §4.2
  (flat storage in insertion order, exact L2 search, optional `remove_ids`).
* The embedding model (`self.model`, sentence-transformers) is an external
  collaborator; `Provider` models it as a per-text embedding function plus a
  failure predicate saying which batch calls raise.
* Disk files are modelled as `Option (Option _)`: `none` = file missing,
  `some none` = file present but failing to parse, `some (some x)` = file
  parses to `x`.  json / faiss.write_index serialization is assumed to
  round-trip per the library contracts; corruption is represented abstractly.
* Python exceptions are modelled with `Except String` results paired with the
  post-raise state (the state at the moment the exception propagates), since
  several claims are about what a failed operation left behind.
-/

namespace AIDocSearch

/-- One metadata record of `self.meta` (`{source, text, page?}`). -/
structure Chunk where
  source : String
  text : String
  page : Option Nat := none
deriving DecidableEq, Repr

instance : Inhabited Chunk := ⟨⟨"", "", none⟩⟩

/-- An embedding vector (a row of the float32 matrices in the source). -/
abbrev Vec := List ℚ

/-- Modelled from the spec (§4.2 Vector Index Engine): a `faiss.IndexFlatL2`
instance — the faiss library itself is not part of this repository.  It holds
`dim`-wide vectors in insertion order; `supportsRemove` records whether this
build exposes a working `remove_ids` (the source probes it via `hasattr` and
catches failures). -/
structure Engine where
  dim : Nat
  vectors : List Vec
  supportsRemove : Bool := true
deriving DecidableEq, Repr

/-- `faiss.IndexFlatL2(dim)` — a fresh empty engine. -/
def Engine.mkEmpty (d : Nat) : Engine := { dim := d, vectors := [], supportsRemove := true }

/-- `index.ntotal`. -/
def Engine.ntotal (e : Engine) : Nat := e.vectors.length

/-- `index.add(vectors)` — bulk append at the end. -/
def Engine.addVecs (e : Engine) (vs : List Vec) : Engine :=
  { e with vectors := e.vectors ++ vs }

/-- Keep the elements of `l` whose position is not listed in `ids`
(`[x for i, x in enumerate(l) if i not in ids]`). -/
def removeAt (l : List α) (ids : List Nat) : List α :=
  ((List.range l.length).filter (fun i => !(ids.contains i))).filterMap (fun i => l.get? i)

/-- `index.remove_ids(ids)` on a flat index: drop the listed positions,
remaining vectors keep their relative order. -/
def Engine.removeIds (e : Engine) (ids : List Nat) : Engine :=
  { e with vectors := removeAt e.vectors ids }

/-- Squared Euclidean distance (faiss `METRIC_L2` reports squared distances). -/
def sqDist (a b : Vec) : ℚ := ((a.zipWith (fun x y => (x - y) ^ 2) b)).sum

/-- Distance of the stored vector at position `i` to the query. -/
def distTo (e : Engine) (q : Vec) (i : Nat) : ℚ := sqDist (e.vectors.getD i []) q

/-- Ranking key of position `i` for a search: ascending squared distance,
ties broken by the lower ordinal position (spec §4.2). -/
def searchKey (e : Engine) (q : Vec) (i : Nat) : ℚ ×ₗ ℕ := toLex (distTo e q i, i)

/-- The engine's ranking relation between ordinal positions. -/
def searchRel (e : Engine) (q : Vec) (i j : Nat) : Prop :=
  searchKey e q i ≤ searchKey e q j

instance (e : Engine) (q : Vec) : DecidableRel (searchRel e q) := fun i j =>
  inferInstanceAs (Decidable (searchKey e q i ≤ searchKey e q j))

instance (e : Engine) (q : Vec) : IsTotal Nat (searchRel e q) :=
  ⟨fun i j => le_total (searchKey e q i) (searchKey e q j)⟩

instance (e : Engine) (q : Vec) : IsTrans Nat (searchRel e q) :=
  ⟨fun _ _ _ h h' => le_trans h h'⟩

/-- Modelled from the spec (§4.2): `index.search(q, k)` returns up to
`min(k, count)` ordinal positions ranked by ascending distance, ties broken by
lower position first. -/
def Engine.search (e : Engine) (q : Vec) (k : Nat) : List Nat :=
  (List.insertionSort (searchRel e q) (List.range e.ntotal)).take (min k e.ntotal)

/-- Modelled from the spec (§2, §6): the embedding model (`self.model`) is an
external collaborator.  `embed1` is the deterministic per-text embedding;
`fails` says which batch calls to `.encode` raise. -/
structure Provider where
  embed1 : String → Vec
  fails : List String → Bool

/-- One `self.model.encode(batch)` call: raises (`none`) or embeds each text. -/
def Provider.encode (p : Provider) (ts : List String) : Option (List Vec) :=
  if p.fails ts then none else some (ts.map p.embed1)

/-- The batched encode loop of `_rebuild_index_from_meta` (batch size 512),
written with a structural fuel so it evaluates by kernel reduction; the fuel
is always the list length, so the `0, _ :: _` case is unreachable. -/
def encodeAllAux (p : Provider) : Nat → List String → Option (List Vec)
  | _, [] => some []
  | 0, _ :: _ => none
  | fuel + 1, t :: ts =>
      match p.encode (t :: ts.take 511), encodeAllAux p fuel (ts.drop 511) with
      | some vs, some rest => some (vs ++ rest)
      | _, _ => none

/-- Encode all texts in batches of 512; `none` if any batch call raises. -/
def encodeAll (p : Provider) (ts : List String) : Option (List Vec) :=
  encodeAllAux p ts.length ts

/-- `np.vstack` succeeds iff all rows have one common width. -/
def allSameWidth (vs : List Vec) : Bool :=
  vs.all (fun v => v.length == (vs.headD []).length)

/-- `vectors.shape[1]` of a nonempty rectangular float32 matrix given as a
list of rows. -/
def headWidth (vs : List Vec) : Nat := (vs.headD []).length

/-- The whole manager state: in-memory fields of the `FaissIndexer` /
`Indexer` object plus the two persisted files.  `vecAttr` is the optional
`self.vectors` attribute that `_rebuild_index_from_meta` installs. -/
structure SysState where
  dim : Nat
  index : Option Engine
  meta : List Chunk
  vecAttr : Option (List Vec) := none
  indexFile : Option (Option Engine) := none
  metaFile : Option (Option (List Chunk)) := none
deriving DecidableEq, Repr

/-- The in-memory fields right after `__init__` assigns them, before the
constructor's `self.load()` call. -/
def preLoadState (d : Nat) (f1 : Option (Option Engine))
    (f2 : Option (Option (List Chunk))) : SysState :=
  { dim := d, index := none, meta := [], vecAttr := none, indexFile := f1, metaFile := f2 }

/-- The vectors the manager currently holds (`[]` when `self.index is None`). -/
def vecsOf : Option Engine → List Vec
  | none => []
  | some e => e.vectors

/-- The observable vector count (`count()` in the spec; `ntotal` or 0). -/
def countF (s : SysState) : Nat := (vecsOf s.index).length

/-- `FaissIndexer.save`: writes the index file only when `self.index` is not
`None`, always rewrites the metadata file.  (The body runs under
`self._lock`; the lock itself is modelled only where reentrancy matters, in
`deleteBySourceLocked`.) -/
def saveF (s : SysState) : SysState :=
  { s with
    indexFile := match s.index with
      | some e => some (some e)
      | none => s.indexFile
    metaFile := some (some s.meta) }

/-- `FaissIndexer.load`: each half independently; a file that exists but fails
to parse sets the in-memory half to `None` / `[]`; a missing file leaves the
in-memory half alone. -/
def loadF (s : SysState) : SysState :=
  let s1 := match s.indexFile with
    | none => s
    | some parsed => { s with index := parsed }
  match s1.metaFile with
  | none => s1
  | some (some m) => { s1 with meta := m }
  | some none => { s1 with meta := [] }

/-- `Indexer.load` (`ingestion/indexer.py`): missing or corrupt halves fall
back to a literal empty `IndexFlatL2` / empty list. -/
def loadI (s : SysState) : SysState :=
  let s1 := match s.indexFile with
    | none => { s with index := some (Engine.mkEmpty s.dim) }
    | some none => { s with index := some (Engine.mkEmpty s.dim) }
    | some (some e) => { s with index := some e }
  match s1.metaFile with
  | none => { s1 with meta := [] }
  | some none => { s1 with meta := [] }
  | some (some m) => { s1 with meta := m }

/-- `FaissIndexer.reset`: fresh empty index, empty metadata, both files
unlinked. -/
def resetF (s : SysState) : SysState :=
  { s with index := some (Engine.mkEmpty s.dim), meta := [],
           indexFile := none, metaFile := none }

/-- `FaissIndexer.add(vectors, metas, clear_existing)`.  Note the order the
source uses: the `clear_existing` wipe and the `None` replacement happen
before the `shape[1] != self.dim` check, so the paired state is what the
object holds when the `ValueError` propagates.  A single flat input vector is
modelled as a one-row list (the `ndim == 1` reshape). -/
def addF (s : SysState) (vs : List Vec) (metas : List Chunk) (clear : Bool) :
    Except String Unit × SysState :=
  let s1 := if clear then { s with index := some (Engine.mkEmpty s.dim), meta := [] } else s
  let e := match s1.index with
    | none => Engine.mkEmpty s1.dim
    | some e => e
  if headWidth vs ≠ s.dim then
    (Except.error "Vector dim mismatch", { s1 with index := some e })
  else
    (Except.ok (), { s1 with index := some (e.addVecs vs), meta := s1.meta ++ metas })

/-- `Indexer.add` (`ingestion/indexer.py`): the dimension check precedes the
lock and every mutation; `clear_existing or self.index is None` wipes both
halves. -/
def addI (s : SysState) (vs : List Vec) (metas : List Chunk) (clear : Bool) :
    Except String Unit × SysState :=
  if headWidth vs ≠ s.dim then
    (Except.error "Vector dimension mismatch", s)
  else
    let s1 := if clear || s.index.isNone
      then { s with index := some (Engine.mkEmpty s.dim), meta := [] } else s
    let e := match s1.index with
      | none => Engine.mkEmpty s1.dim
      | some e => e
    (Except.ok (), { s1 with index := some (e.addVecs vs), meta := s1.meta ++ metas })

/-- `FaissIndexer.retrieve(query, k)`.  The empty-store checks run before the
query is encoded, so an empty store returns `[]` without touching the
provider; a provider failure afterwards propagates as an exception. -/
def retrieveF (p : Provider) (s : SysState) (q : String) (k : Nat) :
    Except String (List Chunk) :=
  match s.index with
  | none => Except.ok []
  | some e =>
      if s.meta.isEmpty then Except.ok []
      else if p.fails [q] then Except.error "encode raised"
      else if e.ntotal = 0 then Except.ok []
      else Except.ok ((e.search (p.embed1 q) (min k e.ntotal)).filterMap
        (fun i => s.meta.get? i))

/-- `Indexer.retrieve` (`ingestion/indexer.py`): same shape, without the
`ntotal == 0` early return. -/
def retrieveI (p : Provider) (s : SysState) (q : String) (k : Nat) :
    Except String (List Chunk) :=
  match s.index with
  | none => Except.ok []
  | some e =>
      if s.meta.isEmpty then Except.ok []
      else if p.fails [q] then Except.error "encode raised"
      else Except.ok ((e.search (p.embed1 q) (min k e.ntotal)).filterMap
        (fun i => s.meta.get? i))

/-- `[i for i, m in enumerate(self.meta) if m.get("source") == source_name]`. -/
def matchPositions (meta : List Chunk) (src : String) : List Nat :=
  (List.range meta.length).filter (fun i => (meta.getD i default).source == src)

/-- `FaissIndexer._rebuild_index_from_meta(kept_meta)`: `none` means the
caught exception path (`return None`), paired with the state at that moment —
the width check runs after `self.index` has already been replaced by a fresh
empty index, so that failure leaves the replacement in place. -/
def rebuildF (p : Provider) (s : SysState) (keptMeta : List Chunk) :
    Option Nat × SysState :=
  let texts := keptMeta.map (fun m => m.text)
  if texts.isEmpty then
    (some 0, { s with index := some (Engine.mkEmpty s.dim), meta := [] })
  else
    match encodeAll p texts with
    | none => (none, s)
    | some vecs =>
        if !(allSameWidth vecs) then (none, s)
        else
          let s1 := { s with index := some (Engine.mkEmpty s.dim) }
          if 0 < vecs.length then
            if headWidth vecs ≠ s.dim then (none, s1)
            else (some keptMeta.length,
              { s1 with index := some ((Engine.mkEmpty s.dim).addVecs vecs),
                        vecAttr := some vecs })
          else (some keptMeta.length, { s1 with vecAttr := some [] })

/-- `FaissIndexer.delete_by_source(source_name)`: state-update semantics of
the body (the `self.save()` calls applied as `saveF`; the fact that those
calls actually self-deadlock on the non-reentrant lock is modelled separately
by `deleteBySourceLocked`).  The error component carries the propagating
`RuntimeError` together with the state it leaves behind. -/
def deleteBySourceF (p : Provider) (s : SysState) (src : String) :
    Except String Nat × SysState :=
  if s.meta.isEmpty then (Except.ok 0, s)
  else
    let toRemove := matchPositions s.meta src
    if toRemove.isEmpty then (Except.ok 0, s)
    else
      let removedCount := toRemove.length
      let hasRemove := match s.index with
        | some e => e.supportsRemove
        | none => false
      if hasRemove then
        let e := match s.index with
          | some e => e
          | none => Engine.mkEmpty s.dim
        let s1 := { s with index := some (e.removeIds toRemove),
                           meta := removeAt s.meta toRemove,
                           vecAttr := s.vecAttr.map (fun vl => removeAt vl toRemove) }
        (Except.ok removedCount, saveF s1)
      else
        let keepMeta := removeAt s.meta toRemove
        match rebuildF p s keepMeta with
        | (none, s1) => (Except.error "Rebuild failed during delete_by_source", s1)
        | (some _, s1) => (Except.ok removedCount, saveF { s1 with meta := keepMeta })

/-- Outcome of running a method whose body may block forever on the manager's
own non-reentrant `threading.Lock`. -/
inductive LockOutcome (α : Type) where
  | deadlock : LockOutcome α
  | err : String → LockOutcome α
  | ok : α → LockOutcome α
deriving DecidableEq, Repr

/-- Whether the call returned normally. -/
def LockOutcome.isOk : LockOutcome α → Bool
  | .ok _ => true
  | _ => false

/-- `FaissIndexer.delete_by_source` with the lock made explicit: the body runs
holding `self._lock`, and every path that reaches `self.save()` blocks forever
re-acquiring that same non-reentrant lock.  A failed rebuild raises before
reaching `save()`, so it terminates with the `RuntimeError` instead. -/
def deleteBySourceLocked (p : Provider) (s : SysState) (src : String) :
    LockOutcome (Nat × SysState) :=
  if s.meta.isEmpty then LockOutcome.ok (0, s)
  else
    let toRemove := matchPositions s.meta src
    if toRemove.isEmpty then LockOutcome.ok (0, s)
    else
      let hasRemove := match s.index with
        | some e => e.supportsRemove
        | none => false
      if hasRemove then LockOutcome.deadlock
      else
        match rebuildF p s (removeAt s.meta toRemove) with
        | (none, _) => LockOutcome.err "Rebuild failed during delete_by_source"
        | (some _, _) => LockOutcome.deadlock

/-- Spec invariant P1: the stored vectors are exactly the embeddings of the
metadata texts, position by position (this equality of lists captures both
the length equality and the pointwise correspondence). -/
def P1 (p : Provider) (s : SysState) : Prop :=
  vecsOf s.index = s.meta.map (fun c => p.embed1 c.text)

/-- The mutating operations of claim C1. -/
inductive Op where
  | add (vs : List Vec) (metas : List Chunk) (clear : Bool)
  | del (src : String)
  | reset
deriving Repr

/-- A well-formed `add` supplies vectors that are the embeddings of its
metadata texts (spec §3: a Vector is created alongside its Chunk as the
embedding of its text). -/
def Op.wf (p : Provider) : Op → Prop
  | .add vs metas _ => vs = metas.map (fun c => p.embed1 c.text)
  | .del _ => True
  | .reset => True

/-- Run one operation; `none` when it raised. -/
def runOp (p : Provider) (s : SysState) : Op → Option SysState
  | .add vs metas clear =>
      match addF s vs metas clear with
      | (Except.ok _, s1) => some s1
      | (Except.error _, _) => none
  | .del src =>
      match deleteBySourceF p s src with
      | (Except.ok _, s1) => some s1
      | (Except.error _, _) => none
  | .reset => some (resetF s)

/-- Run a sequence of operations, stopping at the first failure. -/
def runOps (p : Provider) (s : SysState) : List Op → Option SysState
  | [] => some s
  | o :: os =>
      match runOp p s o with
      | none => none
      | some s1 => runOps p s1 os

/-- States the manager can reach through its own operations, starting from a
freshly constructed object (whose `__init__` runs `load()` on whatever the
two files hold). -/
inductive Reachable : SysState → Prop where
  | boot (d : Nat) (f1 : Option (Option Engine)) (f2 : Option (Option (List Chunk))) :
      Reachable (loadF (preLoadState d f1 f2))
  | addStep {s} (vs : List Vec) (metas : List Chunk) (clear : Bool) :
      Reachable s → Reachable (addF s vs metas clear).2
  | delStep {s} (p : Provider) (src : String) :
      Reachable s → Reachable (deleteBySourceF p s src).2
  | resetStep {s} : Reachable s → Reachable (resetF s)
  | saveStep {s} : Reachable s → Reachable (saveF s)
  | loadStep {s} : Reachable s → Reachable (loadF s)

/-- When the manager holds no engine, the persisted index file cannot parse
(it is missing or corrupt) — the key fact behind the save/load round trip. -/
def DiskInv (s : SysState) : Prop :=
  s.index = none → s.indexFile = none ∨ s.indexFile = some none

/-- Whether an exception-modelling result returned normally. -/
def exOk : Except ε α → Bool
  | Except.ok _ => true
  | Except.error _ => false

/-! Concrete instances used by the witnesses and counterexamples. -/

/-- A well-behaved one-dimensional embedding model. -/
def demoProvider : Provider := { embed1 := fun _ => [1], fails := fun _ => false }

/-- An embedding model whose vectors are 2-wide (wrong for a 1-dimensional
index). -/
def badProvider : Provider := { embed1 := fun _ => [0, 0], fails := fun _ => false }

/-- An embedding model whose every `.encode` call raises. -/
def failProvider : Provider := { embed1 := fun _ => [1], fails := fun _ => true }

def chunkA : Chunk := { source := "A.pdf", text := "alpha" }

def chunkB : Chunk := { source := "B.pdf", text := "beta" }

/-- One indexed chunk from `A.pdf`, vector aligned, native removal available. -/
def demoState : SysState :=
  { dim := 1, index := some { dim := 1, vectors := [[1]], supportsRemove := true },
    meta := [chunkA] }

/-- Two aligned chunks on an engine without `remove_ids`, forcing the rebuild
fallback of `delete_by_source`. -/
def stateC2 : SysState :=
  { dim := 1, index := some { dim := 1, vectors := [[1], [1]], supportsRemove := false },
    meta := [chunkA, chunkB] }

/-- A 2-dimensional index holding one vector and one metadata record. -/
def stateC4 : SysState :=
  { dim := 2, index := some { dim := 2, vectors := [[1, 2]], supportsRemove := true },
    meta := [chunkA] }

def chunkC : Chunk := { source := "C.pdf", text := "gamma" }

/-- Engine with two vectors, used with a one-record metadata list to exhibit a
misaligned aggregate. -/
def engineC10 : Engine := { dim := 1, vectors := [[1], [2]], supportsRemove := true }

/-- Misaligned state: two stored vectors but a single metadata record. -/
def stateC10 : SysState := { dim := 1, index := some engineC10, meta := [chunkA] }

/-- Engine whose three vectors sit at squared distances 1, 36 and 4 from the
query embedding `[1]`. -/
def engine6 : Engine := { dim := 1, vectors := [[0], [7], [3]], supportsRemove := true }

/-- Aligned three-chunk state over `engine6`. -/
def state6 : SysState :=
  { dim := 1, index := some engine6, meta := [chunkA, chunkB, chunkC] }

/-- A concrete well-formed operation sequence: add one embedded chunk, delete
its source, reset. -/
def demoOps : List Op :=
  [Op.add [[1]] [chunkA] false, Op.del "A.pdf", Op.reset]

/-! ## Helper lemmas -/

theorem matchPositions_eq_nil {meta : List Chunk} {src : String}
    (h : ∀ m ∈ meta, m.source ≠ src) : matchPositions meta src = [] := by
  apply List.filter_eq_nil_iff.2
  intro i hi
  rw [List.mem_range] at hi
  have hm : meta.getD i default ∈ meta := by
    rw [List.getD_eq_get meta default hi]
    exact List.get_mem _ _ _
  simp only [beq_iff_eq]
  exact h _ hm

theorem matchPositions_ne_nil {meta : List Chunk} {src : String} {m : Chunk}
    (hm : m ∈ meta) (hsrc : m.source = src) : matchPositions meta src ≠ [] := by
  obtain ⟨⟨i, hi⟩, rfl⟩ := List.mem_iff_get.1 hm
  apply List.ne_nil_of_mem (a := i)
  apply List.mem_filter.2
  refine ⟨List.mem_range.2 hi, ?_⟩
  rw [List.getD_eq_get meta default hi]
  simpa using hsrc

theorem meta_isEmpty_false {meta : List Chunk} {src : String}
    (h : matchPositions meta src ≠ []) : meta.isEmpty = false := by
  cases meta with
  | nil => exact absurd rfl h
  | cons a l => rfl

theorem removeAt_map (f : α → β) (l : List α) (ids : List Nat) :
    removeAt (l.map f) ids = (removeAt l ids).map f := by
  simp only [removeAt, List.length_map, List.map_filterMap, List.get?_map]

theorem encodeAllAux_eq_map (p : Provider) :
    ∀ fuel ts vs, ts.length ≤ fuel → encodeAllAux p fuel ts = some vs →
      vs = ts.map p.embed1 := by
  intro fuel
  induction fuel with
  | zero =>
      intro ts vs hlen h
      cases ts with
      | nil => simp only [encodeAllAux, Option.some.injEq] at h; simp [← h]
      | cons t ts => simp at hlen
  | succ n ih =>
      intro ts vs hlen h
      cases ts with
      | nil => simp only [encodeAllAux, Option.some.injEq] at h; simp [← h]
      | cons t ts =>
          simp only [encodeAllAux] at h
          cases henc : p.encode (t :: ts.take 511) with
          | none => rw [henc] at h; simp at h
          | some vs1 =>
            cases hrec : encodeAllAux p n (ts.drop 511) with
            | none => rw [henc, hrec] at h; simp at h
            | some rest =>
              rw [henc, hrec] at h
              simp only [Option.some.injEq] at h
              have h1 : vs1 = (t :: ts.take 511).map p.embed1 := by
                unfold Provider.encode at henc
                by_cases hf : p.fails (t :: ts.take 511)
                · simp [hf] at henc
                · simp only [hf, if_false, Option.some.injEq, Bool.false_eq_true] at henc
                  exact henc.symm
              have h2 : rest = (ts.drop 511).map p.embed1 := by
                apply ih _ _ _ hrec
                simp only [List.length_cons, Nat.succ_le_succ_iff] at hlen
                simp only [List.length_drop]
                omega
              subst h1 h2
              rw [← h, ← List.map_append]
              congr 1
              rw [List.cons_append, List.take_append_drop]

theorem encodeAll_eq_map (p : Provider) {ts : List String} {vs : List Vec}
    (h : encodeAll p ts = some vs) : vs = ts.map p.embed1 :=
  encodeAllAux_eq_map p ts.length ts vs le_rfl h

/-! ## Claims -/

/-- C5: for every state and every source name matching no metadata record,
`delete_by_source` returns 0 and leaves the entire aggregate — in-memory
index, metadata, the `vectors` attribute, and both persisted files —
byte-for-byte identical to its state before the call. -/
theorem delete_absent_source_noop (p : Provider) (s : SysState) (src : String)
    (h : ∀ m ∈ s.meta, m.source ≠ src) :
    deleteBySourceF p s src = (Except.ok 0, s) := by
  unfold deleteBySourceF
  cases hm : s.meta.isEmpty with
  | true => simp
  | false => simp [matchPositions_eq_nil h]

/-- Witness for C5 at a concrete populated state and an absent source name. -/
theorem delete_absent_source_noop_witness :
    deleteBySourceF demoProvider demoState "nonexistent" = (Except.ok 0, demoState) :=
  delete_absent_source_noop demoProvider demoState "nonexistent" (by decide)

/-- C7: when the store is empty (no index loaded, or no indexed chunks),
`retrieve` returns an empty list and raises no error, in both `FaissIndexer`
and `Indexer` — the empty-store checks run before the query is even
embedded. -/
theorem retrieve_empty_store (p : Provider) (s : SysState) (q : String) (k : Nat)
    (h : s.index = none ∨ s.meta = []) :
    retrieveF p s q k = Except.ok [] ∧ retrieveI p s q k = Except.ok [] := by
  rcases h with h | h
  · simp [retrieveF, retrieveI, h]
  · unfold retrieveF retrieveI
    cases s.index with
    | none => simp
    | some e => simp [h]

/-- Witness for C7: a freshly booted manager with no files on disk. -/
theorem retrieve_empty_store_witness :
    retrieveF demoProvider (preLoadState 1 none none) "query" 5 = Except.ok [] ∧
    retrieveI demoProvider (preLoadState 1 none none) "query" 5 = Except.ok [] :=
  retrieve_empty_store demoProvider (preLoadState 1 none none) "query" 5 (Or.inl rfl)

/-- C3 (code bug): whenever at least one metadata record matches the source
name, `delete_by_source` never returns the removal count: it calls
`self.save()` while already holding the manager's non-reentrant
`threading.Lock`, so every successful path blocks forever on the second
acquire, and the only terminating path is the rebuild-failure exception. -/
theorem delete_with_match_never_returns (p : Provider) (s : SysState) (src : String)
    (h : ∃ m ∈ s.meta, m.source = src) :
    (deleteBySourceLocked p s src).isOk = false := by
  obtain ⟨m, hm, hsrc⟩ := h
  have hmp := matchPositions_ne_nil hm hsrc
  unfold deleteBySourceLocked
  rw [meta_isEmpty_false hmp]
  simp only [Bool.false_eq_true, if_false, List.isEmpty_iff, hmp]
  split
  · rfl
  · split <;> rfl

/-- Witness for C3, at the concrete failing input: one chunk from `A.pdf`
indexed, `delete_by_source("A.pdf")` — the call deadlocks instead of
returning 1. -/
theorem delete_with_match_never_returns_witness :
    (deleteBySourceLocked demoProvider demoState "A.pdf").isOk = false :=
  delete_with_match_never_returns demoProvider demoState "A.pdf"
    ⟨chunkA, by decide, rfl⟩

/-- C4 counterexample: `FaissIndexer.add` with `clear_existing=True` wipes the
index and the metadata before the dimension check, so a wrong-width add fails
*after* emptying the aggregate: the count drops from 1 to 0 and the metadata
list is cleared, contradicting the claim for that flag value. -/
theorem add_dim_clear_not_atomic_cex :
    exOk (addF stateC4 [[1, 2, 3]] [chunkB] true).1 = false ∧
    countF stateC4 = 1 ∧
    countF (addF stateC4 [[1, 2, 3]] [chunkB] true).2 = 0 ∧
    stateC4.meta = [chunkA] ∧
    (addF stateC4 [[1, 2, 3]] [chunkB] true).2.meta = [] := by
  decide

/-- C4 amended: a wrong-width `add` fails with the dimension error and leaves
the count and metadata unchanged — in `FaissIndexer.add` only when
`clear_existing=False` (with `True` the aggregate is first wiped, see the
counterexample); `Indexer.add` checks before mutating and is unchanged for
either flag value. -/
theorem add_dim_guard_atomic (s : SysState) (vs : List Vec) (metas : List Chunk)
    (hw : headWidth vs ≠ s.dim) :
    exOk (addF s vs metas false).1 = false ∧
    countF (addF s vs metas false).2 = countF s ∧
    (addF s vs metas false).2.meta = s.meta ∧
    ∀ clear, addI s vs metas clear = (Except.error "Vector dimension mismatch", s) := by
  refine ⟨?_, ?_, ?_, ?_⟩
  · simp [addF, hw, exOk]
  · cases hi : s.index with
    | none => simp [addF, hw, countF, hi, vecsOf, Engine.mkEmpty]
    | some e => simp [addF, hw, countF, hi, vecsOf]
  · simp [addF, hw]
  · intro clear
    simp [addI, hw]

/-- Witness for C4's amended theorem at a concrete wrong-width input. -/
theorem add_dim_guard_atomic_witness :
    exOk (addF stateC4 [[1, 2, 3]] [chunkB] false).1 = false ∧
    countF (addF stateC4 [[1, 2, 3]] [chunkB] false).2 = countF stateC4 ∧
    (addF stateC4 [[1, 2, 3]] [chunkB] false).2.meta = stateC4.meta ∧
    ∀ clear, addI stateC4 [[1, 2, 3]] [chunkB] clear =
      (Except.error "Vector dimension mismatch", stateC4) :=
  add_dim_guard_atomic stateC4 [[1, 2, 3]] [chunkB] (by decide)

/-- C2 counterexample: in the rebuild fallback of `delete_by_source`, when the
re-embedded vectors have the wrong width the `ValueError` is raised *after*
`self.index` has already been replaced by a fresh empty index: the operation
signals the rebuild failure but the state is partially replaced, not
preserved. -/
theorem delete_rebuild_partial_state_cex :
    exOk (deleteBySourceF badProvider stateC2 "A.pdf").1 = false ∧
    (deleteBySourceF badProvider stateC2 "A.pdf").2 ≠ stateC2 ∧
    (deleteBySourceF badProvider stateC2 "A.pdf").2.index =
      some (Engine.mkEmpty 1) ∧
    stateC2.index = some { dim := 1, vectors := [[1], [1]], supportsRemove := false } := by
  decide

/-- C2 amended: when the embedding provider *errors* during the re-embedding
of the fallback path, `delete_by_source` signals the rebuild failure and
leaves the whole state (index, metadata and files) exactly as before the
call; but when the provider succeeds with wrong-width vectors the vector
index half is replaced by an empty index before the failure is raised (see
the counterexample). -/
theorem delete_rebuild_provider_error_atomic (p : Provider) (s : SysState) (src : String)
    (hsupp : ∀ e, s.index = some e → e.supportsRemove = false)
    (hmatch : matchPositions s.meta src ≠ [])
    (hfail : encodeAll p
      ((removeAt s.meta (matchPositions s.meta src)).map (fun m => m.text)) = none) :
    deleteBySourceF p s src =
      (Except.error "Rebuild failed during delete_by_source", s) := by
  unfold deleteBySourceF
  rw [meta_isEmpty_false hmatch]
  simp only [Bool.false_eq_true, if_false, List.isEmpty_iff, hmatch]
  have hrem : (match s.index with
      | some e => e.supportsRemove
      | none => false) = false := by
    cases hi : s.index with
    | none => rfl
    | some e => exact hsupp e hi
  rw [hrem]
  simp only [Bool.false_eq_true, if_false]
  have htexts : ((removeAt s.meta (matchPositions s.meta src)).map
      (fun m => m.text)).isEmpty = false := by
    cases he : (removeAt s.meta (matchPositions s.meta src)).map (fun m => m.text) with
    | nil => rw [he] at hfail; exact absurd hfail (by simp [encodeAll, encodeAllAux])
    | cons a l => rfl
  have hreb : rebuildF p s (removeAt s.meta (matchPositions s.meta src)) = (none, s) := by
    unfold rebuildF
    simp only [htexts, Bool.false_eq_true, if_false, hfail]
  simp only [hreb]

/-- Witness for C2's amended theorem: a provider whose encode always raises,
on a two-chunk state without native removal. -/
theorem delete_rebuild_provider_error_atomic_witness :
    deleteBySourceF failProvider stateC2 "A.pdf" =
      (Except.error "Rebuild failed during delete_by_source", stateC2) :=
  delete_rebuild_provider_error_atomic failProvider stateC2 "A.pdf"
    (fun e he => by cases he; rfl) (by decide) (by decide)

/-- C9: on a freshly constructed manager, `load()` is total and each half of
the state is determined by its own file alone: a missing or unparseable
vector file leaves `FaissIndexer` with no engine (`index = None`, which every
operation treats as the empty engine) and gives `Indexer` a literal empty
engine; a missing or unparseable metadata file yields the empty metadata
list; a parseable half is restored regardless of the other half's fate; and
if the vector file fell back, a subsequent `retrieve` behaves exactly as on
an empty engine, returning `[]`. -/
theorem load_fallback_independent (d : Nat) (f1 : Option (Option Engine))
    (f2 : Option (Option (List Chunk))) :
    ((loadF (preLoadState d f1 f2)).index = (match f1 with
      | none => none
      | some parsed => parsed) ∧
    (loadF (preLoadState d f1 f2)).meta = (match f2 with
      | some (some m) => m
      | _ => []) ∧
    (loadI (preLoadState d f1 f2)).index = (match f1 with
      | some (some e) => some e
      | _ => some (Engine.mkEmpty d)) ∧
    (loadI (preLoadState d f1 f2)).meta = (match f2 with
      | some (some m) => m
      | _ => [])) ∧
    ((f1 = none ∨ f1 = some none) → ∀ p q k,
      retrieveF p (loadF (preLoadState d f1 f2)) q k = Except.ok []) := by
  constructor
  · rcases f1 with _ | (_ | e1) <;> rcases f2 with _ | (_ | m2) <;>
      exact ⟨rfl, rfl, rfl, rfl⟩
  · rintro (rfl | rfl) p q k <;> rcases f2 with _ | (_ | m2) <;> rfl

/-- Witness for C9 at a concrete disk state where both files are present but
unparseable. -/
theorem load_fallback_independent_witness :
    (((loadF (preLoadState 1 (some none) (some none))).index = (match (some none : Option (Option Engine)) with
      | none => none
      | some parsed => parsed) ∧
    (loadF (preLoadState 1 (some none) (some none))).meta = (match (some none : Option (Option (List Chunk))) with
      | some (some m) => m
      | _ => []) ∧
    (loadI (preLoadState 1 (some none) (some none))).index = (match (some none : Option (Option Engine)) with
      | some (some e) => some e
      | _ => some (Engine.mkEmpty 1)) ∧
    (loadI (preLoadState 1 (some none) (some none))).meta = (match (some none : Option (Option (List Chunk))) with
      | some (some m) => m
      | _ => [])) ∧
    (((some none : Option (Option Engine)) = none ∨ (some none : Option (Option Engine)) = some none) → ∀ p q k,
      retrieveF p (loadF (preLoadState 1 (some none) (some none))) q k = Except.ok [])) :=
  load_fallback_independent 1 (some none) (some none)

/-! Helpers for the save/load round trip: every state the manager can reach
satisfies `DiskInv`. -/

theorem diskInv_loadF (s : SysState) : DiskInv (loadF s) := by
  unfold loadF
  rcases hf : s.indexFile with _ | (_ | e1) <;>
    rcases hm : s.metaFile with _ | (_ | m2) <;>
      simp only [hf, hm] <;> intro hidx <;> simp_all

theorem diskInv_saveF (s : SysState) (h : DiskInv s) : DiskInv (saveF s) := by
  intro hidx
  have hs : s.index = none := hidx
  show (match s.index with
    | some e => some (some e)
    | none => s.indexFile) = none ∨
    (match s.index with
      | some e => some (some e)
      | none => s.indexFile) = some none
  rw [hs]
  exact h hs

theorem addF_index_isSome (s : SysState) (vs : List Vec) (metas : List Chunk)
    (clear : Bool) : (addF s vs metas clear).2.index.isSome := by
  unfold addF
  dsimp only
  split <;> rfl

theorem diskInv_addF (s : SysState) (vs : List Vec) (metas : List Chunk)
    (clear : Bool) : DiskInv (addF s vs metas clear).2 := by
  intro hidx
  have hs := addF_index_isSome s vs metas clear
  rw [hidx] at hs
  simp at hs

theorem rebuildF_state_cases (p : Provider) (s : SysState) (km : List Chunk) :
    (rebuildF p s km).2 = s ∨ (rebuildF p s km).2.index.isSome := by
  unfold rebuildF
  dsimp only
  split
  · right; rfl
  · split
    · left; rfl
    · split
      · left; rfl
      · split
        · split
          · right; rfl
          · right; rfl
        · right; rfl

theorem diskInv_rebuildF (p : Provider) (s : SysState) (km : List Chunk)
    (h : DiskInv s) : DiskInv (rebuildF p s km).2 := by
  rcases rebuildF_state_cases p s km with he | he
  · rw [he]; exact h
  · intro hidx
    rw [hidx] at he
    simp at he

theorem diskInv_delF (p : Provider) (s : SysState) (src : String)
    (h : DiskInv s) : DiskInv (deleteBySourceF p s src).2 := by
  unfold deleteBySourceF
  dsimp only
  split
  · exact h
  · split
    · exact h
    · split
      · intro hidx
        simp [saveF] at hidx
      · split
        · rename_i s1 heq
          have := diskInv_rebuildF p s (removeAt s.meta (matchPositions s.meta src)) h
          rw [heq] at this
          exact this
        · rename_i r s1 heq
          have he2 : DiskInv s1 := by
            rcases rebuildF_state_cases p s
                (removeAt s.meta (matchPositions s.meta src)) with he | he
            · rw [heq] at he
              have hs : s1 = s := he
              rw [hs]
              exact h
            · rw [heq] at he
              have hs : s1.index.isSome := he
              intro hx
              rw [hx] at hs
              simp at hs
          exact diskInv_saveF _ (fun hx => he2 hx)

theorem reachable_diskInv {s : SysState} (h : Reachable s) : DiskInv s := by
  induction h with
  | boot d f1 f2 => exact diskInv_loadF _
  | addStep vs metas clear _ ih => exact diskInv_addF _ vs metas clear
  | delStep p src _ ih => exact diskInv_delF p _ src ih
  | resetStep _ ih => intro hidx; simp [resetF] at hidx
  | saveStep _ ih => exact diskInv_saveF _ ih
  | loadStep _ ih => exact diskInv_loadF _

/-- C8: on every reachable state, `save()` followed by `load()` restores the
in-memory aggregate: the metadata records come back equal and in order, and
the engine (hence the stored vectors, in ordinal order) comes back equal —
exactly, since the model's serialization is exact where the real one
round-trips within floating-point tolerance. -/
theorem save_load_roundtrip (s : SysState) (h : Reachable s) :
    (loadF (saveF s)).index = s.index ∧ (loadF (saveF s)).meta = s.meta := by
  have hinv := reachable_diskInv h
  cases hi : s.index with
  | some e => constructor <;> simp [loadF, saveF, hi]
  | none =>
      rcases hinv hi with hf | hf <;> constructor <;>
        simp [loadF, saveF, hi, hf]

/-- Witness for C8 on the concrete reachable state of a fresh empty boot. -/
theorem save_load_roundtrip_witness :
    (loadF (saveF (loadF (preLoadState 1 none none)))).index =
      (loadF (preLoadState 1 none none)).index ∧
    (loadF (saveF (loadF (preLoadState 1 none none)))).meta =
      (loadF (preLoadState 1 none none)).meta :=
  save_load_roundtrip _ (Reachable.boot 1 none none)

/-! Helpers about `Engine.search` and in-bounds filtering, shared by the
retrieval claims. -/

theorem search_length (e : Engine) (qv : Vec) (k : Nat) :
    (e.search qv k).length = min k e.ntotal := by
  unfold Engine.search
  rw [List.length_take, (List.perm_insertionSort _ _).length_eq, List.length_range]
  omega

theorem search_mem {e : Engine} {qv : Vec} {k i : Nat} (h : i ∈ e.search qv k) :
    i < e.ntotal := by
  unfold Engine.search at h
  have h2 := List.mem_of_mem_take h
  rw [List.mem_insertionSort, List.mem_range] at h2
  exact h2

theorem search_nodup (e : Engine) (qv : Vec) (k : Nat) : (e.search qv k).Nodup := by
  unfold Engine.search
  exact List.Nodup.sublist (List.take_sublist _ _)
    (((List.perm_insertionSort _ _).nodup_iff).2 (List.nodup_range _))

theorem search_pairwise (e : Engine) (qv : Vec) (k : Nat) :
    (e.search qv k).Pairwise (searchRel e qv) :=
  List.Pairwise.sublist (List.take_sublist _ _)
    (List.sorted_insertionSort (searchRel e qv) (List.range e.ntotal))

theorem search_complete (e : Engine) (qv : Vec) (k : Nat) {j : Nat}
    (hj : j < e.ntotal) (hnot : j ∉ e.search qv k) :
    ∀ i ∈ e.search qv k, searchRel e qv i j := by
  intro i hi
  have hsorted : List.Pairwise (searchRel e qv)
      (List.insertionSort (searchRel e qv) (List.range e.ntotal)) :=
    List.sorted_insertionSort (searchRel e qv) (List.range e.ntotal)
  have hsplit := List.take_append_drop (min k e.ntotal)
    (List.insertionSort (searchRel e qv) (List.range e.ntotal))
  have hjmem : j ∈ List.insertionSort (searchRel e qv) (List.range e.ntotal) := by
    rw [List.mem_insertionSort, List.mem_range]
    exact hj
  rw [← hsplit] at hsorted hjmem
  have hjdrop : j ∈ (List.insertionSort (searchRel e qv) (List.range e.ntotal)).drop
      (min k e.ntotal) := by
    rcases List.mem_append.1 hjmem with hcontr | hd
    · exact absurd hcontr hnot
    · exact hd
  exact (List.pairwise_append.1 hsorted).2.2 i hi j hjdrop

theorem filterMap_get?_mem {l : List Nat} {xs : List α} {c : α}
    (hc : c ∈ l.filterMap fun i => xs.get? i) : c ∈ xs := by
  rcases List.mem_filterMap.1 hc with ⟨i, _, hget⟩
  exact List.get?_mem hget

theorem filterMap_get?_length (l : List Nat) (xs : List α) :
    (l.filterMap fun i => xs.get? i).length =
      (l.filter fun i => decide (i < xs.length)).length := by
  induction l with
  | nil => rfl
  | cons a t ih =>
      rw [List.filterMap_cons, List.filter_cons]
      by_cases h : a < xs.length
      · have ha : xs.get? a = some (xs.get ⟨a, h⟩) := List.get?_eq_get h
        rw [ha, if_pos (decide_eq_true h)]
        simp only [List.length_cons]
        rw [ih]
      · have ha : xs.get? a = none := List.get?_eq_none.2 (le_of_not_lt h)
        rw [ha, if_neg (fun hc => h (of_decide_eq_true hc))]
        exact ih

theorem nodup_lt_length_le {l : List Nat} {n : Nat} (hnd : l.Nodup)
    (hlt : ∀ i ∈ l, i < n) : l.length ≤ n := by
  have hsub := (List.Nodup.subperm hnd
    (fun i hi => List.mem_range.2 (hlt i hi))).length_le
  simpa using hsub

theorem filterMap_get?_length_of_bounds {l : List Nat} {xs : List α}
    (h : ∀ i ∈ l, i < xs.length) :
    (l.filterMap fun i => xs.get? i).length = l.length := by
  rw [filterMap_get?_length]
  congr 1
  apply List.filter_eq_self.2
  intro i hi
  simpa using h i hi

/-- C10: whatever the relation between the engine's count and the metadata
length (in particular on a misaligned aggregate, where search yields ordinal
positions past the end of the metadata list), `retrieve` returns normally:
each out-of-bounds position is silently skipped, every returned record comes
from the metadata list, and the result has at most `min(k, count)` entries —
and also at most `len(meta)` entries, hence strictly fewer than
`min(k, count)` whenever the metadata list is shorter. -/
theorem retrieve_skips_out_of_bounds (p : Provider) (s : SysState) (e : Engine)
    (q : String) (k : Nat) (he : s.index = some e) (hq : p.fails [q] = false) :
    ∃ r, retrieveF p s q k = Except.ok r ∧
      r.length ≤ min k e.ntotal ∧
      r.length ≤ s.meta.length ∧
      ∀ c ∈ r, c ∈ s.meta := by
  by_cases hme : s.meta.isEmpty = true
  · exact ⟨[], by simp [retrieveF, he, hme], by simp, by simp, by simp⟩
  · by_cases hnt : e.ntotal = 0
    · exact ⟨[], by simp [retrieveF, he, hme, hq, hnt], by simp, by simp, by simp⟩
    · refine ⟨(e.search (p.embed1 q) (min k e.ntotal)).filterMap
        (fun i => s.meta.get? i), by simp [retrieveF, he, hme, hq, hnt], ?_, ?_, ?_⟩
      · calc ((e.search (p.embed1 q) (min k e.ntotal)).filterMap
              fun i => s.meta.get? i).length
            ≤ (e.search (p.embed1 q) (min k e.ntotal)).length :=
              List.length_filterMap_le _ _
          _ = min (min k e.ntotal) e.ntotal := search_length _ _ _
          _ ≤ min k e.ntotal := by omega
      · rw [filterMap_get?_length]
        apply nodup_lt_length_le
        · exact List.Nodup.filter _ (search_nodup _ _ _)
        · intro i hi
          exact of_decide_eq_true (List.mem_filter.1 hi).2
      · intro c hc
        exact filterMap_get?_mem hc

/-- Witness for C10 on a concrete misaligned state (two vectors, one
metadata record): the call returns normally and is capped by the metadata
length 1, strictly below `min(k, count) = 2`. -/
theorem retrieve_skips_out_of_bounds_witness :
    ∃ r, retrieveF demoProvider stateC10 "query" 2 = Except.ok r ∧
      r.length ≤ min 2 engineC10.ntotal ∧
      r.length ≤ stateC10.meta.length ∧
      ∀ c ∈ r, c ∈ stateC10.meta :=
  retrieve_skips_out_of_bounds demoProvider stateC10 engineC10 "query" 2 rfl rfl

/-! Helpers for the P1 invariant: each successful operation preserves the
alignment between stored vectors and metadata embeddings. -/

theorem P1_addF (p : Provider) {s : SysState} {vs : List Vec} {metas : List Chunk}
    {clear : Bool} {s1 : SysState}
    (hwf : vs = metas.map fun c => p.embed1 c.text)
    (hp : P1 p s) (h : addF s vs metas clear = (Except.ok (), s1)) : P1 p s1 := by
  unfold addF at h
  dsimp only at h
  by_cases hw : headWidth vs ≠ s.dim
  · rw [if_pos hw] at h
    simp at h
  · rw [if_neg hw] at h
    simp only [Prod.mk.injEq] at h
    obtain ⟨-, h2⟩ := h
    subst h2
    cases clear with
    | true =>
        simp only [if_true]
        unfold P1 vecsOf
        simp [Engine.addVecs, Engine.mkEmpty, hwf]
    | false =>
        simp only [Bool.false_eq_true, if_false]
        cases hi : s.index with
        | none =>
            have hm : s.meta = [] := by
              have hp2 := hp
              unfold P1 vecsOf at hp2
              rw [hi] at hp2
              exact (List.map_eq_nil.1 hp2.symm)
            unfold P1 vecsOf
            simp [hi, Engine.addVecs, Engine.mkEmpty, hm, hwf]
        | some e0 =>
            have hv : e0.vectors = s.meta.map fun c => p.embed1 c.text := by
              have hp2 := hp
              unfold P1 vecsOf at hp2
              rw [hi] at hp2
              exact hp2
            unfold P1 vecsOf
            simp [hi, Engine.addVecs, hv, hwf]

theorem rebuildF_ok_vectors (p : Provider) (s : SysState) (km : List Chunk)
    {r : Nat} {s1 : SysState} (h : rebuildF p s km = (some r, s1)) :
    vecsOf s1.index = km.map fun c => p.embed1 c.text := by
  unfold rebuildF at h
  dsimp only at h
  split at h
  · rename_i hemp
    simp only [Prod.mk.injEq] at h
    obtain ⟨-, h2⟩ := h
    subst h2
    have hkm : km = [] := by
      cases km with
      | nil => rfl
      | cons a l => simp at hemp
    subst hkm
    rfl
  · rename_i hemp
    split at h
    · simp at h
    · rename_i vecs henc
      split at h
      · simp at h
      · rename_i hsw
        have hvecs : vecs = (km.map fun m => m.text).map p.embed1 :=
          encodeAll_eq_map p henc
        split at h
        · split at h
          · simp at h
          · rename_i hlen hwid
            simp only [Prod.mk.injEq] at h
            obtain ⟨-, h2⟩ := h
            subst h2
            unfold vecsOf
            simp [Engine.addVecs, Engine.mkEmpty, hvecs, List.map_map]
        · rename_i hlen
          exfalso
          cases km with
          | nil => exact hemp rfl
          | cons a l =>
              apply hlen
              rw [hvecs, List.length_map, List.length_map]
              simp

theorem P1_delF (p : Provider) {s : SysState} {src : String} {n : Nat}
    {s1 : SysState} (hp : P1 p s)
    (h : deleteBySourceF p s src = (Except.ok n, s1)) : P1 p s1 := by
  unfold deleteBySourceF at h
  dsimp only at h
  split at h
  · simp only [Prod.mk.injEq, Except.ok.injEq] at h
    obtain ⟨-, h2⟩ := h
    subst h2
    exact hp
  · split at h
    · simp only [Prod.mk.injEq, Except.ok.injEq] at h
      obtain ⟨-, h2⟩ := h
      subst h2
      exact hp
    · split at h
      · rename_i hrem
        cases hi : s.index with
        | none => rw [hi] at hrem; simp at hrem
        | some e0 =>
            rw [hi] at h
            simp only [Prod.mk.injEq, Except.ok.injEq] at h
            obtain ⟨-, h2⟩ := h
            subst h2
            have hv : e0.vectors = s.meta.map fun c => p.embed1 c.text := by
              have hp2 := hp
              unfold P1 vecsOf at hp2
              rw [hi] at hp2
              exact hp2
            unfold P1 vecsOf
            show (e0.removeIds (matchPositions s.meta src)).vectors =
              (removeAt s.meta (matchPositions s.meta src)).map fun c => p.embed1 c.text
            unfold Engine.removeIds
            dsimp only
            rw [hv, removeAt_map]
      · split at h
        · simp at h
        · rename_i r s1r heq
          simp only [Prod.mk.injEq, Except.ok.injEq] at h
          obtain ⟨-, h2⟩ := h
          subst h2
          have hv := rebuildF_ok_vectors p s (removeAt s.meta (matchPositions s.meta src)) heq
          unfold P1 vecsOf
          unfold vecsOf at hv
          exact hv

theorem P1_runOp (p : Provider) {s : SysState} {o : Op} {s1 : SysState}
    (hwf : o.wf p) (hp : P1 p s) (h : runOp p s o = some s1) : P1 p s1 := by
  cases o with
  | add vs metas clear =>
      unfold runOp at h
      dsimp only at h
      cases ha : addF s vs metas clear with
      | mk res st =>
          rw [ha] at h
          cases res with
          | ok u =>
              simp only [Option.some.injEq] at h
              subst h
              cases u
              exact P1_addF p hwf hp ha
          | error msg => simp at h
  | del src =>
      unfold runOp at h
      dsimp only at h
      cases hd : deleteBySourceF p s src with
      | mk res st =>
          rw [hd] at h
          cases res with
          | ok m =>
              simp only [Option.some.injEq] at h
              subst h
              exact P1_delF p hp hd
          | error msg => simp at h
  | reset =>
      unfold runOp at h
      dsimp only at h
      simp only [Option.some.injEq] at h
      subst h
      unfold P1 vecsOf resetF
      rfl

theorem P1_runOps (p : Provider) (ops : List Op) :
    ∀ s s1, (∀ o ∈ ops, o.wf p) → P1 p s → runOps p s ops = some s1 → P1 p s1 := by
  induction ops with
  | nil =>
      intro s s1 _ hp h
      simp only [runOps, Option.some.injEq] at h
      subst h
      exact hp
  | cons o os ih =>
      intro s s1 hwf hp h
      unfold runOps at h
      cases ho : runOp p s o with
      | none => rw [ho] at h; cases h
      | some s2 =>
          rw [ho] at h
          exact ih s2 s1 (fun o2 ho2 => hwf o2 (List.mem_cons_of_mem _ ho2))
            (P1_runOp p (hwf o (List.mem_cons_self _ _)) hp ho) h

/-- C1: for every sequence of well-formed `add` / `delete_by_source` / `reset`
operations starting from the empty index (each `add` supplying, as the code's
callers do, the embeddings of its metadata texts), after each operation that
completes the stored vectors are exactly the embeddings of the metadata
texts, position by position — in particular the two collections have equal
length (invariant P1).  Operations that raise stop the run instead of
completing. -/
theorem p1_invariant_holds (p : Provider) (d : Nat) (ops : List Op) (s : SysState)
    (hwf : ∀ o ∈ ops, o.wf p)
    (h : runOps p (preLoadState d none none) ops = some s) : P1 p s :=
  P1_runOps p ops (preLoadState d none none) s hwf rfl h

/-- Witness for C1 on a concrete three-operation run (add one embedded chunk,
delete its source through the native-removal path, reset). -/
theorem p1_invariant_holds_witness :
    P1 demoProvider { dim := 1, index := some (Engine.mkEmpty 1), meta := [],
                      vecAttr := none, indexFile := none, metaFile := none } :=
  p1_invariant_holds demoProvider 1 demoOps _
    (by
      intro o ho
      rcases List.mem_cons.1 ho with rfl | ho
      · rfl
      rcases List.mem_cons.1 ho with rfl | ho
      · trivial
      rcases List.mem_cons.1 ho with rfl | ho
      · trivial
      · cases ho)
    rfl

/-- With equal keys impossible between distinct positions, a ranking-order
pair that is not an equality is strict. -/
theorem searchRel_strict {e : Engine} {qv : Vec} {i j : Nat}
    (hle : searchRel e qv i j) (hne : i ≠ j) :
    distTo e qv i < distTo e qv j ∨
      (distTo e qv i = distTo e qv j ∧ i < j) := by
  rcases (Prod.Lex.le_iff (distTo e qv i, i) (distTo e qv j, j)).1 hle with h | ⟨h1, h2⟩
  · exact Or.inl h
  · exact Or.inr ⟨h1, lt_of_le_of_ne h2 hne⟩

/-- C6: on a non-empty aligned index (one metadata record per stored vector)
with `k ≥ 1`, `retrieve` returns exactly `min(k, n)` metadata records — the
records at the list `l` of searched positions — where `l` consists of
in-range positions, is strictly ranked by ascending squared Euclidean
distance from the stored vector to the embedded query with ties broken by the
lower ordinal position first, and is complete: every position left out ranks
no better than every position returned. -/
theorem retrieve_ranking (p : Provider) (s : SysState) (e : Engine) (q : String)
    (k : Nat) (he : s.index = some e) (halign : s.meta.length = e.ntotal)
    (hn : 0 < e.ntotal) (hk : 1 ≤ k) (hq : p.fails [q] = false) :
    ∃ l : List Nat,
      retrieveF p s q k = Except.ok (l.filterMap fun i => s.meta.get? i) ∧
      (l.filterMap fun i => s.meta.get? i).length = min k e.ntotal ∧
      l.length = min k e.ntotal ∧
      (∀ i ∈ l, i < e.ntotal) ∧
      l.Pairwise (fun i j => distTo e (p.embed1 q) i < distTo e (p.embed1 q) j ∨
        (distTo e (p.embed1 q) i = distTo e (p.embed1 q) j ∧ i < j)) ∧
      (∀ j, j < e.ntotal → j ∉ l → ∀ i ∈ l,
        searchKey e (p.embed1 q) i ≤ searchKey e (p.embed1 q) j) := by
  have hme : s.meta.isEmpty = false := by
    cases hm : s.meta with
    | nil => rw [hm] at halign; simp at halign; omega
    | cons a t => rfl
  have hnt : ¬e.ntotal = 0 := by omega
  refine ⟨e.search (p.embed1 q) (min k e.ntotal), ?_, ?_, ?_, ?_, ?_, ?_⟩
  · simp [retrieveF, he, hme, hq, hnt]
  · rw [filterMap_get?_length_of_bounds, search_length]
    · omega
    · intro i hi
      rw [halign]
      exact search_mem hi
  · rw [search_length]
    omega
  · intro i hi
    exact search_mem hi
  · have hpw := search_pairwise e (p.embed1 q) (min k e.ntotal)
    have hnd : (e.search (p.embed1 q) (min k e.ntotal)).Pairwise (· ≠ ·) :=
      search_nodup e (p.embed1 q) (min k e.ntotal)
    exact (hpw.and hnd).imp (fun hab => searchRel_strict hab.1 hab.2)
  · intro j hj hnot i hi
    exact search_complete e (p.embed1 q) (min k e.ntotal) hj hnot i hi

/-- Witness for C6: three vectors at squared distances 1, 36, 4 from the
embedded query, `k = 2`. -/
theorem retrieve_ranking_witness :
    ∃ l : List Nat,
      retrieveF demoProvider state6 "query" 2 =
        Except.ok (l.filterMap fun i => state6.meta.get? i) ∧
      (l.filterMap fun i => state6.meta.get? i).length = min 2 engine6.ntotal ∧
      l.length = min 2 engine6.ntotal ∧
      (∀ i ∈ l, i < engine6.ntotal) ∧
      l.Pairwise (fun i j =>
        distTo engine6 (demoProvider.embed1 "query") i <
          distTo engine6 (demoProvider.embed1 "query") j ∨
        (distTo engine6 (demoProvider.embed1 "query") i =
          distTo engine6 (demoProvider.embed1 "query") j ∧ i < j)) ∧
      (∀ j, j < engine6.ntotal → j ∉ l → ∀ i ∈ l,
        searchKey engine6 (demoProvider.embed1 "query") i ≤
          searchKey engine6 (demoProvider.embed1 "query") j) :=
  retrieve_ranking demoProvider state6 engine6 "query" 2 rfl rfl
    (by decide) (by decide) rfl

end AIDocSearch
